import Mathlib

/-!
# Verification of the coffee-roulette grouping core

Shallow embedding of the grouping logic shared by the two front-ends of the
`coffee_roulette` repository (`cr_streamlit.py` and `dash_app.py`):

* round labeling (`get_next_group_column_name`),
* history extraction (`get_past_pairings`, both the Streamlit and the buggy
  Dash variant),
* the greedy group partitioner (`create_groups_intelligently`).

Python strings are sequences of code points; we model them as Lean `String`
and operate on `String.data` (the list of code points), which matches Python
slicing/`startswith`/`isdigit` semantics exactly for the inputs at hand.
The pandas DataFrame is modelled as a list of column names plus a list of
rows, each row holding the `Name` value and an association list of the other
cells (a missing cell models NaN).
-/

namespace CoffeeRoulette

/-- Python `int(s)` on a string of ASCII digits: fold base-10 over the code points. -/
def pyInt (s : String) : Nat :=
  s.data.foldl (fun a c => a * 10 + (c.toNat - 48)) 0

/-- The test `col.startswith('Group_') and col[6:].isdigit()` (cr_streamlit.py line 15 /
line 31; identical in dash_app.py).  `isdigit` on the ASCII inputs used here
is: nonempty and all characters are decimal digits. -/
def isGroupCol (col : String) : Bool :=
  "Group_".data.isPrefixOf col.data
    && !(col.data.drop 6).isEmpty
    && (col.data.drop 6).all Char.isDigit

/-- Python `int(col.split('_')[1])` for a column accepted by `isGroupCol`: since the
suffix `col[6:]` consists of digits only it contains no underscore, so
`col.split('_')[1]` is exactly `col[6:]`. -/
def colSuffixNum (col : String) : Nat :=
  pyInt ⟨col.data.drop 6⟩

/-- Python `max` over a (nonempty) list; `0` is never used as a default in the
source because the list is checked nonempty first. -/
def maxList : List Nat → Nat
  | [] => 0
  | x :: xs => xs.foldl max x

/-- Decimal digit list of a natural number (the rendering used by the f-string
`f'Group_{next_number}'`), written with explicit fuel so that it reduces by
evaluation; the fuel `n + 1` always suffices because the number of decimal
digits of `n` is at most `n + 1`. -/
def natDigitsCore : Nat → Nat → List Char
  | 0, _ => []
  | fuel + 1, n =>
    if n < 10 then [Char.ofNat (48 + n)]
    else natDigitsCore fuel (n / 10) ++ [Char.ofNat (48 + n % 10)]

def natDigits (n : Nat) : List Char :=
  natDigitsCore (n + 1) n

/-- Decimal rendering of `n`, as produced by Python's f-string. -/
def natRepr (n : Nat) : String :=
  ⟨natDigits n⟩

/-- A pandas row: the `Name` cell plus the remaining cells as an association
list from column name to value; an absent cell models NaN. -/
structure Row where
  name : String
  cells : List (String × String)
deriving Repr, DecidableEq

/-- A pandas DataFrame: its column names and its rows. -/
structure DataFrame where
  cols : List String
  rows : List Row
deriving Repr, DecidableEq

/-- Function `get_next_group_column_name(df)` (cr_streamlit.py lines 11-22, identical
in dash_app.py lines 16-27). -/
def get_next_group_column_name (df : DataFrame) : String :=
  let existing_group_cols := df.cols.filter isGroupCol
  if existing_group_cols.isEmpty then "Group_1"
  else
    let group_numbers := existing_group_cols.map colSuffixNum
    "Group_" ++ natRepr (maxList group_numbers + 1)

/-! ## History extraction (`get_past_pairings`) -/

/-- Value of column `c` in row `r` (`none` models a NaN / absent cell). -/
def getCell (r : Row) (c : String) : Option String :=
  (r.cells.find? (fun e => e.1 == c)).map (fun e => e.2)

/-- Distinct values in order of first occurrence. -/
def uniqAux : List String → List String → List String
  | [], acc => acc.reverse
  | k :: ks, acc => if k ∈ acc then uniqAux ks acc else uniqAux ks (k :: acc)

def uniqVals (l : List String) : List String :=
  uniqAux l []

/-- Lexicographic comparison of code-point lists: Python's string `<=`. -/
def charsLe : List Char → List Char → Bool
  | [], _ => true
  | _ :: _, [] => false
  | a :: as, b :: bs =>
    if a.toNat < b.toNat then true
    else if b.toNat < a.toNat then false
    else charsLe as bs

def strLe (a b : String) : Bool :=
  charsLe a.data b.data

/-- Insertion sort on strings (`df.groupby` sorts group keys). -/
def insertSorted (x : String) : List String → List String
  | [] => [x]
  | y :: ys => if strLe x y then x :: y :: ys else y :: insertSorted x ys

def sortStrings : List String → List String
  | [] => []
  | x :: xs => insertSorted x (sortStrings xs)

/-- The group keys of `df.groupby(col)`: the distinct non-NaN values of the
column, sorted (pandas sorts group keys by default; NaN keys are dropped). -/
def groupKeys (df : DataFrame) (col : String) : List String :=
  sortStrings (uniqVals (df.rows.filterMap (fun r => getCell r col)))

/-- Pandas `df.groupby(col)['Name'].apply(list)` for key `v`: the `Name` values of
the rows whose `col` cell equals `v`, in row order. -/
def groupMembers (df : DataFrame) (col : String) (v : String) : List String :=
  (df.rows.filter (fun r => getCell r col == some v)).map (fun r => r.name)

/-- The `past_pairings` dict: an association list from a person to the list
of people they have shared a group with (the list models a Python `set`:
insertion-ordered, duplicate-free by construction). -/
abbrev PP := List (String × List String)

/-- Dict lookup `past_pairings[p]` (as an `Option`). -/
def ppLookup (pp : PP) (p : String) : Option (List String) :=
  (pp.find? (fun e => e.1 == p)).map (fun e => e.2)

/-- Statement `if p1 not in past_pairings: past_pairings[p1] = set()`. -/
def ppInsertEmpty (pp : PP) (p : String) : PP :=
  if (ppLookup pp p).isSome then pp else pp ++ [(p, [])]

/-- Python `set.add`: append unless already present. -/
def setAdd (s : List String) (x : String) : List String :=
  if x ∈ s then s else s ++ [x]

/-- Statement `past_pairings[p1].add(p2)` when `p1` is a key (no-op on a missing key;
the source only calls it after ensuring the key exists). -/
def ppAdd (pp : PP) (p1 p2 : String) : PP :=
  pp.map (fun e => if e.1 = p1 then (e.1, setAdd e.2 p2) else e)

/-- The inner loop `for j, p2 in enumerate(members): if i != j: add(p2)`:
adds every member except the one at position `i`, i.e. every element of
`members` with position `i` erased. -/
def addAll (pp : PP) (p1 : String) (others : List String) : PP :=
  others.foldl (fun pp p2 => ppAdd pp p1 p2) pp

/-- The outer loop `for i, p1 in enumerate(members)` (cr_streamlit.py lines
41-46).  `done` is the already-processed prefix and `todo` the rest, so
`done ++ todo = members` and the members other than the current `p1` are
`done ++ rest` (the list with position `i` erased). -/
def processMembersAux (pp : PP) : List String → List String → PP
  | _, [] => pp
  | done, p1 :: rest =>
    processMembersAux (addAll (ppInsertEmpty pp p1) p1 (done ++ rest)) (done ++ [p1]) rest

/-- Processing one historical group's member list (Streamlit version). -/
def processGroup (pp : PP) (members : List String) : PP :=
  processMembersAux pp [] members

/-- Function `get_past_pairings(df)` of cr_streamlit.py (lines 24-47). -/
def get_past_pairings (df : DataFrame) : PP :=
  let group_cols := df.cols.filter isGroupCol
  if group_cols.isEmpty then []
  else
    group_cols.foldl (fun pp col =>
      (groupKeys df col).foldl (fun pp v =>
        let members := groupMembers df col v
        if members.length > 1 then processGroup pp members else pp) pp) []

/-! ### The Dash variant of `get_past_pairings`

dash_app.py lines 46-48 read

`for i, p1 in enumerate(members):`
`    if p1 not in past_pairings:`
`        past_pairings[p1].add(p2)`

so when `p1` has no entry yet the subscript `past_pairings[p1]` itself is
evaluated on a missing key and raises `KeyError` (before `p2` — a name that
is not even bound at that point — would be looked up).  We model the raised
exception with `Except.error "KeyError"`. -/

def processMembersAuxDash (pp : PP) : List String → List String → Except String PP
  | _, [] => .ok pp
  | done, p1 :: rest =>
    match ppLookup pp p1 with
    | none => .error "KeyError"
    | some _ => processMembersAuxDash (addAll pp p1 (done ++ rest)) (done ++ [p1]) rest

def processGroupDash (pp : PP) (members : List String) : Except String PP :=
  processMembersAuxDash pp [] members

def keysFoldDash (df : DataFrame) (col : String) : PP → List String → Except String PP
  | pp, [] => .ok pp
  | pp, v :: vs => do
    let members := groupMembers df col v
    let pp ← if members.length > 1 then processGroupDash pp members else .ok pp
    keysFoldDash df col pp vs

def colsFoldDash (df : DataFrame) : PP → List String → Except String PP
  | pp, [] => .ok pp
  | pp, col :: cols => do
    let pp ← keysFoldDash df col pp (groupKeys df col)
    colsFoldDash df pp cols

/-- Function `get_past_pairings(df)` of dash_app.py (lines 29-52), with the raised
`KeyError` made explicit in an `Except`. -/
def get_past_pairings_dash (df : DataFrame) : Except String PP :=
  let group_cols := df.cols.filter isGroupCol
  if group_cols.isEmpty then .ok []
  else colsFoldDash df [] group_cols

/-! ### State-threaded extractor

To make mutation (or its absence) observable, this version threads the
DataFrame through every pandas operation the Python function performs.
`dfColumns` models `df.columns` and `dfGroupby` models
`df.groupby(col)['Name'].apply(list).to_dict()`; neither pandas operation
mutates its DataFrame, which the primitives encode by returning the state
unchanged. -/

def dfColumns (df : DataFrame) : List String × DataFrame :=
  (df.cols, df)

def dfGroupby (col : String) (df : DataFrame) :
    List (String × List String) × DataFrame :=
  ((groupKeys df col).map (fun v => (v, groupMembers df col v)), df)

/-- One iteration of `for col in group_cols`, threading the DataFrame. -/
def ppColStep (x : PP × DataFrame) (col : String) : PP × DataFrame :=
  let (grouped, df) := dfGroupby col x.2
  (grouped.foldl (fun pp vm =>
    if vm.2.length > 1 then processGroup pp vm.2 else pp) x.1, df)

/-- State-threaded `get_past_pairings`: returns the mapping together with the
DataFrame as left behind by the pandas calls. -/
def get_past_pairingsM (df : DataFrame) : PP × DataFrame :=
  let (cols, df) := dfColumns df
  let group_cols := cols.filter isGroupCol
  if group_cols.isEmpty then ([], df)
  else group_cols.foldl ppColStep ([], df)

/-! ## The greedy group partitioner (`create_groups_intelligently`)

cr_streamlit.py lines 49-113 (byte-for-byte the same algorithm in
dash_app.py lines 54-98).  The two calls to `random.shuffle` are modelled by
explicit shuffle parameters: `shuf0` permutes the initial participant list
(line 54) and `shuf i` permutes the candidate pool at loop iteration `i`
(line 90); theorems assume they are permutations.  List mutation is modelled
by value passing, and the exceptions Python could raise (`IndexError` from
`pop(0)` on an empty list, `ValueError` from `remove` on a missing element)
are modelled in `Except`.  The `while` loop is written with explicit fuel;
`participants.length + 1` is enough fuel because every iteration removes at
least the anchor from the pool, and the no-`error "fuel"` results below are
exactly the termination argument. -/

/-- The test `person1 not in past_pairings or p not in past_pairings[person1]`
(cr_streamlit.py line 79). -/
def isCandidate (pp : PP) (person1 p : String) : Bool :=
  match ppLookup pp person1 with
  | none => true
  | some s => !(s.contains p)

/-- Statement `available_participants.remove(p)`: removes the first occurrence, raises
`ValueError` if absent. -/
def removeFirst (l : List String) (x : String) : Except String (List String) :=
  if l.contains x then .ok (l.erase x) else .error "ValueError"

/-- The candidate branch's inner loop (cr_streamlit.py lines 91-96): `k`
times, if candidates remain, pop the head, add it to the group, and remove
it from the available pool.  Returns the picked members (in order) and the
new pool. -/
def pickLoop : List String → List String → Nat → Except String (List String × List String)
  | _, avail, 0 => .ok ([], avail)
  | [], avail, _ + 1 => .ok ([], avail)
  | c :: cs, avail, k + 1 => do
    let avail1 ← removeFirst avail c
    let (picked, avail2) ← pickLoop cs avail1 k
    .ok (c :: picked, avail2)

/-- One iteration body of the `while` loop, after popping the anchor
`person1` from the pool (so `rest` is the pool without the anchor):
build the candidate pool, then either the fallback branch (lines 83-87:
fill with the first `group_size - 1` of the remaining pool, in pool order)
or the candidate branch (lines 88-96).  Returns the finished group and the
new pool. -/
def formGroup (pp : PP) (gsize : Nat) (shufF : List String → List String)
    (person1 : String) (rest : List String) :
    Except String (List String × List String) :=
  let cands := rest.filter (fun p => isCandidate pp person1 p)
  if cands.length < gsize - 1 then
    .ok (person1 :: rest.take (gsize - 1), rest.drop (gsize - 1))
  else do
    let (picked, rest1) ← pickLoop (shufF cands) rest (gsize - 1)
    .ok (person1 :: picked, rest1)

/-- The `while len(available_participants) >= group_size` loop
(cr_streamlit.py lines 66-98), with fuel; `ctr` counts iterations so that
each iteration can use its own candidate shuffle. -/
def groupLoopCore (pp : PP) (gsize : Nat) (shuf : Nat → List String → List String) :
    Nat → Nat → List String → List (List String) →
    Except String (List (List String) × List String)
  | 0, _, _, _ => .error "fuel"
  | fuel + 1, ctr, avail, groups =>
    if avail.length ≥ gsize then
      match avail with
      | [] => .error "IndexError"
      | person1 :: rest => do
        let (group, avail1) ← formGroup pp gsize (shuf ctr) person1 rest
        groupLoopCore pp gsize shuf fuel (ctr + 1) avail1 (groups ++ [group])
    else .ok (groups, avail)

/-- Remainder handling (cr_streamlit.py lines 100-112): one leftover joins
the first group (or forms a singleton group when there is no group), two
leftovers form a final group of two, and any other leftover count falls
through both `if`s untouched. -/
def handleRemainder (groups : List (List String)) (avail : List String) :
    List (List String) :=
  if !avail.isEmpty then
    if avail.length == 1 then
      match groups with
      | [] => groups ++ [avail]
      | g :: gs => (g ++ avail) :: gs
    else if avail.length == 2 then groups ++ [avail]
    else groups
  else groups

/-- Function `create_groups_intelligently(participants_df, past_pairings, group_size)`
(cr_streamlit.py lines 49-113).  `names` is `participants_df['Name'].tolist()`. -/
def create_groups_intelligently (names : List String) (pp : PP) (gsize : Nat)
    (shuf0 : List String → List String) (shuf : Nat → List String → List String) :
    Except String (List (List String)) := do
  let participants := shuf0 names
  let (groups, avail) ←
    groupLoopCore pp gsize shuf (participants.length + 1) 0 participants []
  .ok (handleRemainder groups avail)

/-- A shuffle oracle is a permutation at every call. -/
def IsShuffler (shuf : Nat → List String → List String) : Prop :=
  ∀ n l, List.Perm (shuf n l) l

/-- Results in `Except` of the embedded functions can be compared by evaluation
in concrete theorems. -/
instance {α : Type} [DecidableEq α] : DecidableEq (Except String α) := fun a b =>
  match a, b with
  | .ok x, .ok y => decidable_of_iff (x = y) (by simp)
  | .error x, .error y => decidable_of_iff (x = y) (by simp)
  | .ok _, .error _ => isFalse (by simp)
  | .error _, .ok _ => isFalse (by simp)

/-! ## Concrete fixtures used in witnesses and counterexamples -/

/-- Roster columns `Group_1, Group_2` and no rows (round labeling only looks
at the columns). -/
def dfRounds12 : DataFrame := ⟨["Name", "Branch", "Group_1", "Group_2"], []⟩

/-- Roster columns `Group_1, Group_3` (non-contiguous suffixes). -/
def dfRounds13 : DataFrame := ⟨["Name", "Group_1", "Group_3"], []⟩

/-- Roster with no round columns. -/
def dfNoRounds : DataFrame := ⟨["Name", "Branch"], []⟩

/-- Columns that merely start with the round prefix but have a non-numeric
(or empty) suffix, next to a genuine `Group_1`. -/
def dfOddCols : DataFrame := ⟨["Group_1", "Group_three", "Group_2a", "Group_"], []⟩

/-- A row whose only historical cell is its `Group_1` label. -/
def historyRow (n g : String) : Row := ⟨n, [("Group_1", g)]⟩

/-- One round column grouping `{A,B,C}` and `{D,E}`. -/
def dfFiveNames : DataFrame :=
  ⟨["Name", "Branch", "Group_1"],
    [historyRow "A" "g1", historyRow "B" "g1", historyRow "C" "g1",
     historyRow "D" "g2", historyRow "E" "g2"]⟩

/-- One round column with the single historical group `{A,B}`. -/
def dfPairAB : DataFrame :=
  ⟨["Name", "Branch", "Group_1"], [historyRow "A" "g1", historyRow "B" "g1"]⟩

/-- An avoidance mapping in which `B` and `C` avoid each other but neither
avoids `A`. -/
def ppBC : PP := [("B", ["C"]), ("C", ["B"])]

/-! ## Predicates about the extracted mapping -/

/-- Membership in the avoidance set of `y` (a missing key reads as the empty
set). -/
def ppMem (pp : PP) (y x : String) : Prop :=
  x ∈ (ppLookup pp y).getD []

instance (pp : PP) (y x : String) : Decidable (ppMem pp y x) := by
  unfold ppMem; infer_instance

/-- Whether `p` is a key of the dict. -/
def ppHasKey (pp : PP) (p : String) : Bool :=
  (ppLookup pp p).isSome

/-- The pairs recorded when processing a member list: `y` occurs at some
position of `todo` and `x` at a different position of the full member list
`done ++ todo`. -/
def Grp (done todo : List String) (y x : String) : Prop :=
  ∃ d r, todo = d ++ y :: r ∧ x ∈ (done ++ d) ++ r

/-- Symmetry of the avoidance mapping. -/
def SymmPP (pp : PP) : Prop :=
  ∀ y x, ppMem pp y x → ppMem pp x y

/-- Every recorded avoidance set is duplicate-free. -/
def EntriesNodup (pp : PP) : Prop :=
  ∀ y s, ppLookup pp y = some s → s.Nodup

/-! # Theorems

## Decimal rendering and round labeling -/

theorem char_digit_spec (k : Nat) (hk : k < 10) :
    (Char.ofNat (48 + k)).toNat = 48 + k ∧ (Char.ofNat (48 + k)).isDigit = true := by
  interval_cases k <;> exact ⟨rfl, rfl⟩

theorem pyInt_append (cs : List Char) (c : Char) :
    pyInt ⟨cs ++ [c]⟩ = pyInt ⟨cs⟩ * 10 + (c.toNat - 48) := by
  simp [pyInt, List.foldl_append]

theorem natDigitsCore_spec :
    ∀ fuel n, n < fuel →
      pyInt ⟨natDigitsCore fuel n⟩ = n ∧ natDigitsCore fuel n ≠ [] ∧
        ∀ c ∈ natDigitsCore fuel n, c.isDigit = true := by
  intro fuel
  induction fuel with
  | zero => intro n hn; omega
  | succ fuel ih =>
    intro n hn
    by_cases h10 : n < 10
    · have hc := char_digit_spec n h10
      refine ⟨?_, ?_, ?_⟩
      · simp [natDigitsCore, h10, pyInt, hc.1]
      · simp [natDigitsCore, h10]
      · simp [natDigitsCore, h10, hc.2]
    · have hpos : 0 < n := by omega
      have hdiv : n / 10 < n := Nat.div_lt_self hpos (by omega)
      have ihd := ih (n / 10) (by omega)
      have hm := char_digit_spec (n % 10) (Nat.mod_lt n (by omega))
      have hrw : natDigitsCore (fuel + 1) n =
          natDigitsCore fuel (n / 10) ++ [Char.ofNat (48 + n % 10)] := by
        simp [natDigitsCore, h10]
      refine ⟨?_, ?_, ?_⟩
      · rw [hrw, pyInt_append, ihd.1, hm.1]
        have := Nat.div_add_mod n 10
        omega
      · simp [hrw]
      · intro c hc
        rw [hrw] at hc
        rcases List.mem_append.mp hc with h | h
        · exact ihd.2.2 c h
        · simp at h; rw [h]; exact hm.2

theorem natDigits_pyInt (n : Nat) : pyInt ⟨natDigits n⟩ = n :=
  (natDigitsCore_spec (n + 1) n (Nat.lt_succ_self n)).1

theorem natDigits_ne_nil (n : Nat) : natDigits n ≠ [] :=
  (natDigitsCore_spec (n + 1) n (Nat.lt_succ_self n)).2.1

theorem natDigits_all_digit (n : Nat) : ∀ c ∈ natDigits n, c.isDigit = true :=
  (natDigitsCore_spec (n + 1) n (Nat.lt_succ_self n)).2.2

theorem data_group_natRepr (n : Nat) :
    ("Group_" ++ natRepr n).data = "Group_".data ++ natDigits n := by
  rw [String.data_append]; rfl

theorem drop6_group_natRepr (n : Nat) :
    ("Group_" ++ natRepr n).data.drop 6 = natDigits n := by
  rw [data_group_natRepr]
  have h6 : 6 = "Group_".data.length := rfl
  rw [h6, List.drop_left]

theorem isGroupCol_group_natRepr (n : Nat) :
    isGroupCol ("Group_" ++ natRepr n) = true := by
  unfold isGroupCol
  rw [Bool.and_eq_true, Bool.and_eq_true]
  refine ⟨⟨?_, ?_⟩, ?_⟩
  · rw [data_group_natRepr]
    exact List.isPrefixOf_iff_prefix.mpr (List.prefix_append _ _)
  · rw [drop6_group_natRepr]
    simp [List.isEmpty_iff, natDigits_ne_nil n]
  · rw [drop6_group_natRepr]
    exact List.all_eq_true.mpr (natDigits_all_digit n)

theorem colSuffixNum_group_natRepr (n : Nat) :
    colSuffixNum ("Group_" ++ natRepr n) = n := by
  unfold colSuffixNum
  rw [drop6_group_natRepr]
  exact natDigits_pyInt n

theorem le_foldl_max : ∀ (xs : List Nat) (a : Nat), a ≤ xs.foldl max a := by
  intro xs
  induction xs with
  | nil => intro a; exact Nat.le_refl a
  | cons x xs ih =>
    intro a
    exact le_trans (Nat.le_max_left a x) (ih (max a x))

theorem mem_le_foldl_max : ∀ (xs : List Nat) (a x : Nat), x ∈ xs → x ≤ xs.foldl max a := by
  intro xs
  induction xs with
  | nil => intro a x hx; cases hx
  | cons y ys ih =>
    intro a x hx
    rcases List.mem_cons.mp hx with h | h
    · subst h
      exact le_trans (Nat.le_max_right a x) (le_foldl_max ys (max a x))
    · exact ih (max a y) x h

theorem foldl_max_mem : ∀ (xs : List Nat) (a : Nat),
    xs.foldl max a = a ∨ xs.foldl max a ∈ xs := by
  intro xs
  induction xs with
  | nil => intro a; exact Or.inl rfl
  | cons x ys ih =>
    intro a
    rcases ih (max a x) with h | h
    · rcases max_choice a x with hm | hm
      · exact Or.inl (by rw [List.foldl, h, hm])
      · exact Or.inr (by rw [List.foldl, h, hm]; exact List.mem_cons_self x ys)
    · exact Or.inr (List.mem_cons_of_mem x h)

theorem maxList_ge : ∀ (l : List Nat), ∀ x ∈ l, x ≤ maxList l := by
  intro l x hx
  cases l with
  | nil => cases hx
  | cons y ys =>
    rcases List.mem_cons.mp hx with h | h
    · subst h; exact le_foldl_max ys x
    · exact mem_le_foldl_max ys y x h

theorem maxList_mem : ∀ (l : List Nat), l ≠ [] → maxList l ∈ l := by
  intro l hl
  cases l with
  | nil => exact absurd rfl hl
  | cons y ys =>
    rcases foldl_max_mem ys y with h | h
    · rw [maxList, h]; exact List.mem_cons_self y ys
    · exact List.mem_cons_of_mem y h

/-- Shared specification of `get_next_group_column_name`: it returns
`"Group_" ++ m` in decimal where `m` exceeds every existing round-column
suffix and is either `1` or the successor of an existing suffix. -/
theorem get_next_spec (df : DataFrame) :
    ∃ m, get_next_group_column_name df = "Group_" ++ natRepr m ∧
      (∀ col ∈ df.cols, isGroupCol col = true → colSuffixNum col < m) ∧
      (m = 1 ∨ ∃ col ∈ df.cols, isGroupCol col = true ∧ m = colSuffixNum col + 1) := by
  by_cases h : (df.cols.filter isGroupCol).isEmpty = true
  · refine ⟨1, ?_, ?_, Or.inl rfl⟩
    · simp only [get_next_group_column_name, h, if_true]
      decide
    · intro col hcol hgc
      have : col ∈ df.cols.filter isGroupCol := List.mem_filter.mpr ⟨hcol, hgc⟩
      rw [List.isEmpty_iff.mp h] at this
      cases this
  · have hne : df.cols.filter isGroupCol ≠ [] := by
      intro hnil; rw [hnil] at h; exact h rfl
    set existing := df.cols.filter isGroupCol with hex
    set nums := existing.map colSuffixNum with hnums
    refine ⟨maxList nums + 1, ?_, ?_, ?_⟩
    · simp only [get_next_group_column_name, ← hex, ← hnums]
      rw [if_neg h]
    · intro col hcol hgc
      have hmemf : col ∈ existing := List.mem_filter.mpr ⟨hcol, hgc⟩
      have : colSuffixNum col ∈ nums := List.mem_map_of_mem colSuffixNum hmemf
      exact Nat.lt_succ_of_le (maxList_ge nums _ this)
    · right
      have hnn : nums ≠ [] := by
        intro hnil
        rcases existing with _ | ⟨c, cs⟩
        · exact hne rfl
        · simp [hnums] at hnil
      rcases List.mem_map.mp (maxList_mem nums hnn) with ⟨col, hcolmem, hcoleq⟩
      exact ⟨col, (List.mem_filter.mp hcolmem).1, (List.mem_filter.mp hcolmem).2,
        by rw [hcoleq]⟩

/-- C7: `next_round_name` returns the prefix followed by the maximum existing
round suffix plus one (or `Group_1` when no round columns exist), tolerates
non-contiguous suffixes (`Group_1, Group_3` give `Group_4`), and excludes
columns whose suffix is not purely numeric. -/
theorem next_round_name_correct :
    (∀ df : DataFrame,
      ∃ m, get_next_group_column_name df = "Group_" ++ natRepr m ∧
        (∀ col ∈ df.cols, isGroupCol col = true → colSuffixNum col < m) ∧
        (m = 1 ∨ ∃ col ∈ df.cols, isGroupCol col = true ∧ m = colSuffixNum col + 1)) ∧
    get_next_group_column_name dfRounds12 = "Group_3" ∧
    get_next_group_column_name dfRounds13 = "Group_4" ∧
    get_next_group_column_name dfNoRounds = "Group_1" ∧
    get_next_group_column_name dfOddCols = "Group_2" :=
  ⟨get_next_spec, by decide, by decide, by decide, by decide⟩

/-- Witness for C7 at the concrete roster with columns `Group_1, Group_2`. -/
theorem next_round_name_correct_witness :
    ∃ m, get_next_group_column_name dfRounds12 = "Group_" ++ natRepr m ∧
      (∀ col ∈ dfRounds12.cols, isGroupCol col = true → colSuffixNum col < m) ∧
      (m = 1 ∨ ∃ col ∈ dfRounds12.cols, isGroupCol col = true ∧ m = colSuffixNum col + 1) :=
  next_round_name_correct.1 dfRounds12

/-- C8: the integer suffix of the returned round-column name strictly exceeds
every round-column integer already present, hence the returned name never
equals an existing column name. -/
theorem round_label_fresh (df : DataFrame) :
    (∀ col ∈ df.cols, isGroupCol col = true →
      colSuffixNum col < colSuffixNum (get_next_group_column_name df)) ∧
    get_next_group_column_name df ∉ df.cols := by
  obtain ⟨m, hm, hlt, _⟩ := get_next_spec df
  constructor
  · intro col hcol hgc
    rw [hm, colSuffixNum_group_natRepr]
    exact hlt col hcol hgc
  · intro hmem
    have hgc : isGroupCol (get_next_group_column_name df) = true := by
      rw [hm]; exact isGroupCol_group_natRepr m
    have := hlt _ hmem hgc
    rw [hm, colSuffixNum_group_natRepr] at this
    exact Nat.lt_irrefl m this

/-- Witness for C8 at the concrete roster with columns `Group_1, Group_2`. -/
theorem round_label_fresh_witness :
    colSuffixNum "Group_2" < colSuffixNum (get_next_group_column_name dfRounds12) ∧
    get_next_group_column_name dfRounds12 ∉ dfRounds12.cols :=
  ⟨(round_label_fresh dfRounds12).1 "Group_2" (by decide) (by decide),
    (round_label_fresh dfRounds12).2⟩

/-! ## History-extractor lemmas -/

theorem setAdd_mem (s : List String) (a x : String) :
    x ∈ setAdd s a ↔ x ∈ s ∨ x = a := by
  by_cases h : a ∈ s
  · simp only [setAdd, if_pos h]
    exact ⟨Or.inl, fun hx => hx.elim id (fun he => he ▸ h)⟩
  · simp [setAdd, if_neg h, List.mem_append]

theorem setAdd_nodup (s : List String) (a : String) (hs : s.Nodup) :
    (setAdd s a).Nodup := by
  by_cases h : a ∈ s
  · simpa [setAdd, if_pos h] using hs
  · simp [setAdd, if_neg h, List.nodup_append, hs, h]

theorem ppMem_insertEmpty (pp : PP) (p y x : String) :
    ppMem (ppInsertEmpty pp p) y x ↔ ppMem pp y x := by
  unfold ppMem ppInsertEmpty
  by_cases h : (ppLookup pp p).isSome
  · rw [if_pos h]
  · rw [if_neg h]
    unfold ppLookup
    rw [List.find?_append]
    cases hf : List.find? (fun e => e.1 == y) pp with
    | some e => simp [Option.or]
    | none =>
      simp only [Option.or, Option.map]
      by_cases hy : p = y
      · have : ppLookup pp p = none := by
          cases hl : ppLookup pp p
          · rfl
          · rw [hl] at h; simp at h
        simp [List.find?, hy]
      · have : (p == y) = false := by simp [hy]
        simp [List.find?, this]

theorem ppHasKey_insertEmpty_self (pp : PP) (p : String) :
    ppHasKey (ppInsertEmpty pp p) p = true := by
  unfold ppHasKey ppInsertEmpty
  by_cases h : (ppLookup pp p).isSome
  · rw [if_pos h]; exact h
  · rw [if_neg h]
    have hn : List.find? (fun e => e.1 == p) pp = none := by
      unfold ppLookup at h
      cases hf : List.find? (fun e => e.1 == p) pp
      · rfl
      · rw [hf] at h; simp at h
    unfold ppLookup
    rw [List.find?_append, hn]
    simp [List.find?]

theorem ppLookup_cons (e : String × List String) (rest : PP) (q : String) :
    ppLookup (e :: rest) q = if e.1 = q then some e.2 else ppLookup rest q := by
  unfold ppLookup
  by_cases h : e.1 = q
  · rw [List.find?_cons_of_pos _ (by simp [h]), if_pos h]
    rfl
  · rw [List.find?_cons_of_neg _ (by simp [h]), if_neg h]

theorem ppLookup_ppAdd (pp : PP) (p1 p2 q : String) :
    ppLookup (ppAdd pp p1 p2) q =
      if q = p1 then (ppLookup pp q).map (fun s => setAdd s p2)
      else ppLookup pp q := by
  induction pp with
  | nil => by_cases h : q = p1 <;> simp [ppAdd, ppLookup, h]
  | cons e rest ih =>
    have hstep : ppAdd (e :: rest) p1 p2 =
        (if e.1 = p1 then (e.1, setAdd e.2 p2) else e) :: ppAdd rest p1 p2 := by
      simp [ppAdd]
    rw [hstep]
    by_cases h1 : e.1 = p1
    · rw [if_pos h1, ppLookup_cons, ppLookup_cons]
      by_cases h2 : e.1 = q
      · have hq : q = p1 := by rw [← h2, h1]
        rw [if_pos (show ((e.1, setAdd e.2 p2) : String × List String).1 = q from h2),
          if_pos hq, if_pos h2]
        rfl
      · rw [if_neg (show ¬ ((e.1, setAdd e.2 p2) : String × List String).1 = q from h2),
          if_neg h2, ih]
    · rw [if_neg h1, ppLookup_cons, ppLookup_cons]
      by_cases h2 : e.1 = q
      · have hq : ¬ q = p1 := by rw [← h2]; exact h1
        rw [if_pos h2, if_pos h2, if_neg hq]
      · rw [if_neg h2, if_neg h2, ih]

theorem ppMem_ppAdd (pp : PP) (p1 p2 y x : String) :
    ppMem (ppAdd pp p1 p2) y x ↔
      ppMem pp y x ∨ (y = p1 ∧ ppHasKey pp p1 = true ∧ x = p2) := by
  unfold ppMem ppHasKey
  rw [ppLookup_ppAdd]
  by_cases hy : y = p1
  · subst hy
    cases hl : ppLookup pp y with
    | none => simp
    | some s => simp [setAdd_mem]
  · simp [hy]

theorem ppHasKey_ppAdd (pp : PP) (p1 p2 q : String) :
    ppHasKey (ppAdd pp p1 p2) q = ppHasKey pp q := by
  unfold ppHasKey
  rw [ppLookup_ppAdd]
  by_cases h : q = p1
  · subst h; cases ppLookup pp q <;> simp
  · rw [if_neg h]

theorem ppHasKey_addAll (others : List String) (pp : PP) (p1 q : String) :
    ppHasKey (addAll pp p1 others) q = ppHasKey pp q := by
  induction others generalizing pp with
  | nil => rfl
  | cons o os ih =>
    unfold addAll at ih ⊢
    rw [List.foldl_cons, ih, ppHasKey_ppAdd]

theorem ppMem_addAll (others : List String) (pp : PP) (p1 y x : String)
    (hk : ppHasKey pp p1 = true) :
    ppMem (addAll pp p1 others) y x ↔ ppMem pp y x ∨ (y = p1 ∧ x ∈ others) := by
  induction others generalizing pp with
  | nil => simp [addAll]
  | cons o os ih =>
    unfold addAll at ih ⊢
    rw [List.foldl_cons, ih (ppAdd pp p1 o) ((ppHasKey_ppAdd pp p1 o p1).trans hk),
      ppMem_ppAdd]
    simp only [List.mem_cons]
    constructor
    · rintro ((h | ⟨hy, _, hx⟩) | ⟨hy, hx⟩)
      · exact Or.inl h
      · exact Or.inr ⟨hy, Or.inl hx⟩
      · exact Or.inr ⟨hy, Or.inr hx⟩
    · rintro (h | ⟨hy, hx | hx⟩)
      · exact Or.inl (Or.inl h)
      · exact Or.inl (Or.inr ⟨hy, hk, hx⟩)
      · exact Or.inr ⟨hy, hx⟩

theorem Grp_nil (done : List String) (y x : String) : ¬ Grp done [] y x := by
  rintro ⟨d, r, hd, _⟩
  cases d <;> simp at hd

theorem Grp_cons (done rest : List String) (p1 y x : String) :
    Grp done (p1 :: rest) y x ↔
      (y = p1 ∧ x ∈ done ++ rest) ∨ Grp (done ++ [p1]) rest y x := by
  constructor
  · rintro ⟨d, r, hd, hx⟩
    cases d with
    | nil =>
      simp only [List.nil_append, List.cons.injEq] at hd
      rcases hd with ⟨hy, hr⟩
      subst hy; subst hr
      simp only [List.append_nil] at hx
      exact Or.inl ⟨rfl, hx⟩
    | cons a d1 =>
      simp only [List.cons_append, List.cons.injEq] at hd
      rcases hd with ⟨ha, hrest⟩
      subst ha
      refine Or.inr ⟨d1, r, hrest, ?_⟩
      have : done ++ [p1] ++ d1 = done ++ p1 :: d1 := by simp
      rw [this]
      exact hx
  · rintro (⟨hy, hx⟩ | ⟨d1, r, hrest, hx⟩)
    · subst hy
      exact ⟨[], rest, rfl, by simpa using hx⟩
    · refine ⟨p1 :: d1, r, by rw [hrest]; rfl, ?_⟩
      have : done ++ [p1] ++ d1 = done ++ p1 :: d1 := by simp
      rw [this] at hx
      exact hx

theorem Grp_symm (m : List String) (y x : String) (h : Grp [] m y x) :
    Grp [] m x y := by
  rcases h with ⟨d, r, hm, hx⟩
  simp only [List.nil_append] at hx
  rcases List.mem_append.mp hx with hxd | hxr
  · rcases List.append_of_mem hxd with ⟨d1, d2, rfl⟩
    refine ⟨d1, d2 ++ y :: r, by simp [hm], ?_⟩
    simp
  · rcases List.append_of_mem hxr with ⟨r1, r2, rfl⟩
    refine ⟨d ++ y :: r1, r2, by simp [hm], ?_⟩
    simp

theorem processMembersAux_mem :
    ∀ (todo done : List String) (pp : PP) (y x : String),
      ppMem (processMembersAux pp done todo) y x ↔
        ppMem pp y x ∨ Grp done todo y x := by
  intro todo
  induction todo with
  | nil =>
    intro done pp y x
    simp [processMembersAux, Grp_nil done y x]
  | cons p1 rest ih =>
    intro done pp y x
    rw [processMembersAux, ih,
      ppMem_addAll _ _ _ _ _ (ppHasKey_insertEmpty_self pp p1),
      ppMem_insertEmpty, Grp_cons]
    tauto

theorem processGroup_mem (pp : PP) (m : List String) (y x : String) :
    ppMem (processGroup pp m) y x ↔ ppMem pp y x ∨ Grp [] m y x :=
  processMembersAux_mem m [] pp y x

theorem SymmPP_processGroup (pp : PP) (m : List String) (h : SymmPP pp) :
    SymmPP (processGroup pp m) := by
  intro y x hm
  rw [processGroup_mem] at hm ⊢
  rcases hm with hm | hm
  · exact Or.inl (h y x hm)
  · exact Or.inr (Grp_symm m y x hm)

theorem foldl_preserve {α : Type} (P : PP → Prop) (f : PP → α → PP)
    (hf : ∀ pp a, P pp → P (f pp a)) :
    ∀ (l : List α) (pp : PP), P pp → P (l.foldl f pp) := by
  intro l
  induction l with
  | nil => intro pp h; exact h
  | cons a as ih => intro pp h; exact ih (f pp a) (hf pp a h)

theorem SymmPP_nil : SymmPP [] := by
  intro y x h
  simp [ppMem, ppLookup] at h

theorem SymmPP_get_past_pairings (df : DataFrame) :
    SymmPP (get_past_pairings df) := by
  unfold get_past_pairings
  by_cases h : (df.cols.filter isGroupCol).isEmpty
  · simp only [h, if_true]
    exact SymmPP_nil
  · simp only [h, if_false]
    refine foldl_preserve SymmPP _ ?_ _ [] SymmPP_nil
    intro pp col hpp
    refine foldl_preserve SymmPP _ ?_ _ pp hpp
    intro pp v hpp
    by_cases hl : (groupMembers df col v).length > 1
    · simpa [hl] using SymmPP_processGroup pp _ hpp
    · simpa [hl] using hpp

theorem EntriesNodup_nil : EntriesNodup [] := by
  intro y s h
  simp [ppLookup] at h

theorem EntriesNodup_insertEmpty (pp : PP) (p : String) (h : EntriesNodup pp) :
    EntriesNodup (ppInsertEmpty pp p) := by
  intro y s hs
  unfold ppInsertEmpty at hs
  by_cases hk : (ppLookup pp p).isSome
  · rw [if_pos hk] at hs; exact h y s hs
  · rw [if_neg hk] at hs
    unfold ppLookup at hs
    rw [List.find?_append] at hs
    cases hf : List.find? (fun e => e.1 == y) pp with
    | some e =>
      rw [hf] at hs
      simp only [Option.or, Option.map] at hs
      exact h y s (by unfold ppLookup; rw [hf]; exact hs)
    | none =>
      rw [hf] at hs
      simp only [Option.or] at hs
      by_cases hy : p = y
      · simp [List.find?, hy] at hs
        rw [hs]
        exact List.nodup_nil
      · have : (p == y) = false := by simp [hy]
        simp [List.find?, this] at hs

theorem EntriesNodup_ppAdd (pp : PP) (p1 p2 : String) (h : EntriesNodup pp) :
    EntriesNodup (ppAdd pp p1 p2) := by
  intro y s hs
  rw [ppLookup_ppAdd] at hs
  by_cases hy : y = p1
  · rw [if_pos hy] at hs
    cases hl : ppLookup pp y with
    | none => rw [hl] at hs; simp at hs
    | some t =>
      rw [hl] at hs
      simp only [Option.map] at hs
      have := h y t hl
      injection hs with hs
      subst hs
      exact setAdd_nodup t p2 this
  · rw [if_neg hy] at hs
    exact h y s hs

theorem EntriesNodup_addAll (others : List String) (pp : PP) (p1 : String)
    (h : EntriesNodup pp) : EntriesNodup (addAll pp p1 others) := by
  induction others generalizing pp with
  | nil => exact h
  | cons o os ih =>
    unfold addAll at ih ⊢
    rw [List.foldl_cons]
    exact ih (ppAdd pp p1 o) (EntriesNodup_ppAdd pp p1 o h)

theorem EntriesNodup_processMembersAux :
    ∀ (todo done : List String) (pp : PP), EntriesNodup pp →
      EntriesNodup (processMembersAux pp done todo) := by
  intro todo
  induction todo with
  | nil => intro done pp h; exact h
  | cons p1 rest ih =>
    intro done pp h
    rw [processMembersAux]
    exact ih _ _ (EntriesNodup_addAll _ _ _ (EntriesNodup_insertEmpty pp p1 h))

theorem EntriesNodup_get_past_pairings (df : DataFrame) :
    EntriesNodup (get_past_pairings df) := by
  unfold get_past_pairings
  by_cases h : (df.cols.filter isGroupCol).isEmpty
  · simp only [h, if_true]
    exact EntriesNodup_nil
  · simp only [h, if_false]
    refine foldl_preserve EntriesNodup _ ?_ _ [] EntriesNodup_nil
    intro pp col hpp
    refine foldl_preserve EntriesNodup _ ?_ _ pp hpp
    intro pp v hpp
    by_cases hl : (groupMembers df col v).length > 1
    · simpa [hl] using EntriesNodup_processMembersAux _ _ pp hpp
    · simpa [hl] using hpp

/-- C6: the mapping built by the history extractor is symmetric and
deduplicated; on the roster with one round column grouping `{A,B,C}` and
`{D,E}` it is exactly `{A:{B,C}, B:{A,C}, C:{A,B}, D:{E}, E:{D}}`; with zero
round columns it is empty. -/
theorem extractor_symmetric_dedup :
    (∀ (df : DataFrame) (y x : String),
      ppMem (get_past_pairings df) y x ↔ ppMem (get_past_pairings df) x y) ∧
    (∀ (df : DataFrame) (y : String) (s : List String),
      ppLookup (get_past_pairings df) y = some s → s.Nodup) ∧
    get_past_pairings dfFiveNames =
      [("A", ["B", "C"]), ("B", ["A", "C"]), ("C", ["A", "B"]),
        ("D", ["E"]), ("E", ["D"])] ∧
    (∀ df : DataFrame, df.cols.filter isGroupCol = [] → get_past_pairings df = []) := by
  refine ⟨?_, ?_, by decide, ?_⟩
  · intro df y x
    exact ⟨SymmPP_get_past_pairings df y x, SymmPP_get_past_pairings df x y⟩
  · intro df y s hs
    exact EntriesNodup_get_past_pairings df y s hs
  · intro df h
    simp [get_past_pairings, h]

/-- Witness for C6: symmetry instantiated on the five-name roster, and the
empty mapping on a roster with no round columns. -/
theorem extractor_symmetric_dedup_witness :
    (ppMem (get_past_pairings dfFiveNames) "A" "B" ↔
      ppMem (get_past_pairings dfFiveNames) "B" "A") ∧
    get_past_pairings dfNoRounds = [] :=
  ⟨extractor_symmetric_dedup.1 dfFiveNames "A" "B",
    extractor_symmetric_dedup.2.2.2 dfNoRounds (by decide)⟩

/-- C5 (divergence of the two front-ends): on a roster whose single round
column groups `A` and `B` together, the Streamlit extractor returns
`{A:{B}, B:{A}}` while the Dash extractor raises `KeyError` on the first
member it processes (dash_app.py line 48 subscripts a missing key). -/
theorem dash_extractor_diverges :
    get_past_pairings dfPairAB = [("A", ["B"]), ("B", ["A"])] ∧
    get_past_pairings_dash dfPairAB = .error "KeyError" := by
  exact ⟨by decide, by decide⟩

/-! ## Purity of the extractor (C10) -/

theorem ppColStep_state (x : PP × DataFrame) (col : String) :
    ppColStep x col =
      ((groupKeys x.2 col).foldl (fun pp v =>
        if (groupMembers x.2 col v).length > 1
        then processGroup pp (groupMembers x.2 col v) else pp) x.1, x.2) := by
  simp [ppColStep, dfGroupby, List.foldl_map]

theorem foldl_ppColStep (cols : List String) (pp : PP) (df : DataFrame) :
    cols.foldl ppColStep (pp, df) =
      (cols.foldl (fun pp col =>
        (groupKeys df col).foldl (fun pp v =>
          if (groupMembers df col v).length > 1
          then processGroup pp (groupMembers df col v) else pp) pp) pp, df) := by
  induction cols generalizing pp with
  | nil => rfl
  | cons c cs ih =>
    rw [List.foldl_cons, List.foldl_cons, ppColStep_state]
    exact ih _

theorem get_past_pairingsM_eq (df : DataFrame) :
    get_past_pairingsM df = (get_past_pairings df, df) := by
  unfold get_past_pairingsM get_past_pairings dfColumns
  by_cases h : (df.cols.filter isGroupCol).isEmpty
  · simp only [h, if_true]
  · simp only [h, if_false, foldl_ppColStep]
    simp

/-- C10: the history extractor reads the roster without mutating it and is a
deterministic function of it: the state-threaded version leaves the
DataFrame unchanged, agrees with the pure function, and running it twice on
the resulting state yields the identical mapping. -/
theorem extractor_pure (df : DataFrame) :
    (get_past_pairingsM df).2 = df ∧
    (get_past_pairingsM df).1 = get_past_pairings df ∧
    (get_past_pairingsM ((get_past_pairingsM df).2)).1 = (get_past_pairingsM df).1 := by
  rw [get_past_pairingsM_eq df]
  exact ⟨rfl, rfl, by rw [get_past_pairingsM_eq df]⟩

/-! ## Partitioner lemmas -/

theorem except_ok_bind {α β : Type} (a : α) (f : α → Except String β) :
    (Except.ok a : Except String α) >>= f = f a := rfl

theorem pickLoop_spec :
    ∀ (k : Nat) (cands avail : List String),
      (∀ x, cands.count x ≤ avail.count x) →
      ∃ rest1, pickLoop cands avail k = .ok (cands.take k, rest1) ∧
        avail.Perm (cands.take k ++ rest1) := by
  intro k
  induction k with
  | zero =>
    intro cands avail h
    exact ⟨avail, by simp [pickLoop], by simp⟩
  | succ k ih =>
    intro cands avail h
    cases cands with
    | nil => exact ⟨avail, by simp [pickLoop], by simp⟩
    | cons c cs =>
      have hc : c ∈ avail := by
        have h1 : 0 < (c :: cs).count c := by
          rw [List.count_cons_self]; omega
        exact List.count_pos_iff.mp (lt_of_lt_of_le h1 (h c))
      have hcont : avail.contains c = true := List.elem_eq_true_of_mem hc
      have hrem : removeFirst avail c = .ok (avail.erase c) := by
        simp [removeFirst, hcont, hc]
      have h2 : ∀ x, cs.count x ≤ (avail.erase c).count x := by
        intro x
        have hx := h x
        rw [List.count_cons] at hx
        rw [List.count_erase]
        by_cases hxc : c = x
        · subst hxc; simp at hx ⊢; omega
        · have hbe : (c == x) = false := by simp [hxc]
          rw [hbe] at hx ⊢
          simp at hx ⊢
          omega
      obtain ⟨rest1, hpl, hperm⟩ := ih cs (avail.erase c) h2
      refine ⟨rest1, ?_, ?_⟩
      · simp only [pickLoop, hrem, hpl, except_ok_bind, List.take_succ_cons]
      · rw [List.take_succ_cons, List.cons_append]
        exact (List.perm_cons_erase hc).trans (hperm.cons c)

theorem formGroup_spec (pp : PP) (gsize : Nat) (shufF : List String → List String)
    (person1 : String) (rest : List String)
    (hr : gsize - 1 ≤ rest.length) (hsh : ∀ l, (shufF l).Perm l) :
    ∃ tail rest1, formGroup pp gsize shufF person1 rest = .ok (person1 :: tail, rest1) ∧
      tail.length = gsize - 1 ∧ rest.Perm (tail ++ rest1) := by
  unfold formGroup
  by_cases hcl : (rest.filter (fun p => isCandidate pp person1 p)).length < gsize - 1
  · rw [if_pos hcl]
    refine ⟨rest.take (gsize - 1), rest.drop (gsize - 1), rfl, ?_, ?_⟩
    · rw [List.length_take]
      exact min_eq_left hr
    · rw [List.take_append_drop]
  · rw [if_neg hcl]
    have hcount : ∀ x,
        (shufF (rest.filter (fun p => isCandidate pp person1 p))).count x ≤ rest.count x := by
      intro x
      rw [(hsh _).count_eq x]
      exact (List.filter_sublist rest).count_le x
    obtain ⟨rest1, hpl, hperm⟩ := pickLoop_spec (gsize - 1) _ rest hcount
    refine ⟨_, rest1, ?_, ?_, hperm⟩
    · simp only [hpl, except_ok_bind]
    · rw [List.length_take, (hsh _).length_eq]
      exact min_eq_left (le_of_not_lt hcl)

theorem groupLoopCore_spec (pp : PP) (gsize : Nat)
    (shuf : Nat → List String → List String)
    (hgs : 1 ≤ gsize) (hs : IsShuffler shuf) :
    ∀ (fuel ctr : Nat) (avail : List String) (groups : List (List String)),
      avail.length < fuel →
      ∃ newgs rest,
        groupLoopCore pp gsize shuf fuel ctr avail groups = .ok (groups ++ newgs, rest) ∧
        (∀ g ∈ newgs, g.length = gsize) ∧
        newgs.length = avail.length / gsize ∧
        rest.length = avail.length % gsize ∧
        avail.Perm (newgs.flatten ++ rest) := by
  intro fuel
  induction fuel with
  | zero => intro ctr avail groups h; omega
  | succ fuel ih =>
    intro ctr avail groups hlen
    by_cases hge : avail.length ≥ gsize
    · cases avail with
      | nil =>
        simp at hge
        omega
      | cons person1 rest0 =>
        simp only [List.length_cons] at hge hlen
        have hr : gsize - 1 ≤ rest0.length := by omega
        obtain ⟨tail, avail1, hfg, htl, hperm⟩ :=
          formGroup_spec pp gsize (shuf ctr) person1 rest0 hr (hs ctr)
        have hav1 : avail1.length = rest0.length + 1 - gsize := by
          have hpl := hperm.length_eq
          rw [List.length_append, htl] at hpl
          omega
        have hlt : avail1.length < fuel := by omega
        obtain ⟨newgs1, rest, hrec, hlens, hcnt, hmod, hperm2⟩ :=
          ih (ctr + 1) avail1 (groups ++ [person1 :: tail]) hlt
        refine ⟨(person1 :: tail) :: newgs1, rest, ?_, ?_, ?_, ?_, ?_⟩
        · have hcond : (person1 :: rest0).length ≥ gsize := by
            simp only [List.length_cons]; omega
          simp only [groupLoopCore, if_pos hcond, hfg, except_ok_bind, hrec]
          try simp [List.append_assoc]
        · intro g hg
          rcases List.mem_cons.mp hg with hg | hg
          · rw [hg]; simp [htl]; omega
          · exact hlens g hg
        · simp only [List.length_cons, hcnt, hav1]
          rw [Nat.div_eq_sub_div (by omega) (by omega : gsize ≤ rest0.length + 1)]
        · simp only [List.length_cons, hmod, hav1]
          rw [Nat.mod_eq_sub_mod (by omega : rest0.length + 1 ≥ gsize)]
        · have hstep : (person1 :: rest0).Perm (person1 :: (tail ++ avail1)) :=
            hperm.cons person1
          have hstep2 : (tail ++ avail1).Perm (tail ++ (newgs1.flatten ++ rest)) :=
            hperm2.append_left tail
          have := hstep.trans (hstep2.cons person1)
          simpa [List.append_assoc] using this
    · refine ⟨[], avail, ?_, by simp, ?_, ?_, by simp⟩
      · simp [groupLoopCore, hge]
      · simp [Nat.div_eq_of_lt (lt_of_not_ge hge)]
      · simp [Nat.mod_eq_of_lt (lt_of_not_ge hge)]

/-- Combined behaviour of `create_groups_intelligently` before remainder
handling: the greedy loop emits `⌊n / group_size⌋` groups of exactly
`group_size` members, leaves `n % group_size` participants, and together
they permute the roster. -/
theorem create_spec (names : List String) (pp : PP) (gsize : Nat)
    (shuf0 : List String → List String) (shuf : Nat → List String → List String)
    (h0 : (shuf0 names).Perm names) (hgs : 1 ≤ gsize) (hs : IsShuffler shuf) :
    ∃ newgs rest,
      create_groups_intelligently names pp gsize shuf0 shuf =
        .ok (handleRemainder newgs rest) ∧
      (∀ g ∈ newgs, g.length = gsize) ∧
      newgs.length = names.length / gsize ∧
      rest.length = names.length % gsize ∧
      names.Perm (newgs.flatten ++ rest) := by
  obtain ⟨newgs, rest, hok, hlens, hcnt, hmod, hperm⟩ :=
    groupLoopCore_spec pp gsize shuf hgs hs ((shuf0 names).length + 1) 0 (shuf0 names) []
      (Nat.lt_succ_self _)
  have hlen0 : (shuf0 names).length = names.length := h0.length_eq
  refine ⟨newgs, rest, ?_, hlens, by rw [← hlen0]; exact hcnt,
    by rw [← hlen0]; exact hmod, h0.symm.trans hperm⟩
  unfold create_groups_intelligently
  simp only [hok, except_ok_bind, List.nil_append]

theorem handleRemainder_flatten (groups : List (List String)) (avail : List String)
    (h : avail.length ≤ 2) :
    (handleRemainder groups avail).flatten.Perm (groups.flatten ++ avail) := by
  unfold handleRemainder
  by_cases h0 : avail.isEmpty
  · rw [List.isEmpty_iff.mp h0]
    simp
  · have hne : avail ≠ [] := fun hnil => h0 (by rw [hnil]; rfl)
    have hpos : 0 < avail.length := List.length_pos.mpr hne
    rw [if_pos (by simp [h0])]
    by_cases h1 : avail.length = 1
    · rw [if_pos (by simp [h1])]
      cases groups with
      | nil => simp
      | cons g gs1 =>
        simp only [List.flatten_cons, List.cons_append]
        have : (avail ++ gs1.flatten).Perm (gs1.flatten ++ avail) :=
          List.perm_append_comm
        have h2 := this.append_left g
        simpa [List.append_assoc] using h2
    · have h2 : avail.length = 2 := by omega
      rw [if_neg (by simp [h1]), if_pos (by simp [h2])]
      simp

/-- C9: for every name list and every `group_size ≥ 1` the partitioner
terminates and raises no exception: with permutation shuffles the embedded
function returns `.ok` — in particular the fuel (one unit per loop
iteration, each of which removes at least the anchor) never runs out, no
`pop(0)` on an empty list occurs, and every `remove` finds its element. -/
theorem partitioner_total (names : List String) (pp : PP) (gsize : Nat)
    (shuf0 : List String → List String) (shuf : Nat → List String → List String)
    (hne : names ≠ []) (hgs : 1 ≤ gsize)
    (h0 : ∀ l, (shuf0 l).Perm l) (hs : IsShuffler shuf) :
    ∃ gs, create_groups_intelligently names pp gsize shuf0 shuf = .ok gs := by
  obtain ⟨newgs, rest, hok, -, -, -, -⟩ :=
    create_spec names pp gsize shuf0 shuf (h0 names) hgs hs
  exact ⟨handleRemainder newgs rest, hok⟩

/-- Witness for C9 on a concrete four-name roster. -/
theorem partitioner_total_witness :
    ∃ gs, create_groups_intelligently ["A", "B", "C", "D"] [] 3 id
      (fun _ l => l) = .ok gs :=
  partitioner_total ["A", "B", "C", "D"] [] 3 id (fun _ l => l)
    (by decide) (by omega) (fun l => List.Perm.refl l) (fun _ l => List.Perm.refl l)

/-- C1 (amended): for every nonempty participant list and every
`group_size ≥ 1` such that the leftover `length % group_size` is at most 2
— in particular always when `group_size ≤ 3`, the only value the
application uses — the partition covers every input name exactly once.
(For larger group sizes a leftover of 3 or more is silently dropped by the
remainder handling, see the counterexample.) -/
theorem partition_covers_roster (names : List String) (pp : PP) (gsize : Nat)
    (shuf0 : List String → List String) (shuf : Nat → List String → List String)
    (hne : names ≠ []) (hgs : 1 ≤ gsize) (hmod : names.length % gsize ≤ 2)
    (h0 : ∀ l, (shuf0 l).Perm l) (hs : IsShuffler shuf) :
    ∃ gs, create_groups_intelligently names pp gsize shuf0 shuf = .ok gs ∧
      gs.flatten.Perm names := by
  obtain ⟨newgs, rest, hok, -, -, hmod2, hperm⟩ :=
    create_spec names pp gsize shuf0 shuf (h0 names) hgs hs
  refine ⟨handleRemainder newgs rest, hok, ?_⟩
  have h2 : rest.length ≤ 2 := by rw [hmod2]; exact hmod
  exact (handleRemainder_flatten newgs rest h2).trans hperm.symm

/-- Witness for C1 on a five-name roster with group size 3 (leftover 2). -/
theorem partition_covers_roster_witness :
    ∃ gs, create_groups_intelligently ["P", "Q", "R", "S", "T"] [] 3 id
        (fun _ l => l) = .ok gs ∧
      gs.flatten.Perm ["P", "Q", "R", "S", "T"] :=
  partition_covers_roster ["P", "Q", "R", "S", "T"] [] 3 id (fun _ l => l)
    (by decide) (by omega) (by decide)
    (fun l => List.Perm.refl l) (fun _ l => List.Perm.refl l)

/-- Counterexample to C1 as stated: with 3 names and `group_size = 4` the
loop never runs, the remainder branch handles only 1 or 2 leftovers, and
all three participants are silently dropped, so no covering partition is
returned. -/
theorem partition_drops_remainder :
    ¬ ∃ gs, create_groups_intelligently ["A", "B", "C"] [] 4 id
        (fun _ l => l) = .ok gs ∧ gs.flatten.Perm ["A", "B", "C"] := by
  rintro ⟨gs, hok, hperm⟩
  have h : create_groups_intelligently ["A", "B", "C"] [] 4 id
      (fun _ l => l) = .ok [] := by decide
  rw [h] at hok
  injection hok with hok
  rw [← hok] at hperm
  have := hperm.length_eq
  simp at this

/-- C2 (amended): an empty roster yields an empty group list, and a roster
of 1 or 2 names smaller than `group_size` yields exactly one group
containing everyone (in particular 2 names with group size 3).  A roster of
3 or more names that is still smaller than `group_size` is instead dropped,
see the counterexample. -/
theorem degenerate_rosters :
    (∀ (pp : PP) (gsize : Nat) (shuf0 : List String → List String)
        (shuf : Nat → List String → List String),
      (∀ l, (shuf0 l).Perm l) → 1 ≤ gsize →
      create_groups_intelligently [] pp gsize shuf0 shuf = .ok []) ∧
    (∀ (names : List String) (pp : PP) (gsize : Nat)
        (shuf0 : List String → List String)
        (shuf : Nat → List String → List String),
      (∀ l, (shuf0 l).Perm l) → 1 ≤ names.length → names.length ≤ 2 →
      names.length < gsize →
      ∃ g, create_groups_intelligently names pp gsize shuf0 shuf = .ok [g] ∧
        g.Perm names) := by
  constructor
  · intro pp gsize shuf0 shuf h0 hgs
    have hnil : shuf0 [] = [] := (h0 []).eq_nil
    unfold create_groups_intelligently
    rw [hnil]
    have hc : ¬ ([] : List String).length ≥ gsize := by simp; omega
    simp only [groupLoopCore, if_neg hc, except_ok_bind]
    rfl
  · intro names pp gsize shuf0 shuf h0 hge1 hle2 hlt
    have hplen : (shuf0 names).length = names.length := (h0 names).length_eq
    refine ⟨shuf0 names, ?_, h0 names⟩
    unfold create_groups_intelligently
    have hc : ¬ (shuf0 names).length ≥ gsize := by omega
    simp only [groupLoopCore, if_neg hc, except_ok_bind]
    have hne2 : shuf0 names ≠ [] := by
      intro hnil
      rw [hnil] at hplen
      simp at hplen
      omega
    have hie : (shuf0 names).isEmpty = false := by
      cases hsn : shuf0 names with
      | nil => exact absurd hsn hne2
      | cons a l => rfl
    unfold handleRemainder
    rw [hie]
    simp only [Bool.not_false, if_true]
    by_cases h1 : (shuf0 names).length = 1
    · rw [if_pos (by simp [h1])]
      cases hsn : shuf0 names with
      | nil => exact absurd hsn hne2
      | cons a l => rfl
    · have h2 : (shuf0 names).length = 2 := by omega
      rw [if_neg (by simp [h1]), if_pos (by simp [h2])]
      rfl

/-- Witness for C2: the empty roster, and the claim's own instance of 2
names with group size 3. -/
theorem degenerate_rosters_witness :
    create_groups_intelligently [] [] 3 id (fun _ l => l) = .ok [] ∧
    ∃ g, create_groups_intelligently ["A", "B"] [] 3 id (fun _ l => l) = .ok [g] ∧
      g.Perm ["A", "B"] :=
  ⟨degenerate_rosters.1 [] 3 id (fun _ l => l) (fun l => List.Perm.refl l) (by omega),
    degenerate_rosters.2 ["A", "B"] [] 3 id (fun _ l => l)
      (fun l => List.Perm.refl l) (by decide) (by decide) (by decide)⟩

/-- Counterexample to C2 as stated: 3 names with group size 5 yield no group
at all rather than one group containing everyone. -/
theorem small_roster_not_single_group :
    ¬ ∃ g, create_groups_intelligently ["A", "B", "C"] [] 5 id
        (fun _ l => l) = .ok [g] ∧ g.Perm ["A", "B", "C"] := by
  rintro ⟨g, hok, -⟩
  have h : create_groups_intelligently ["A", "B", "C"] [] 5 id
      (fun _ l => l) = .ok [] := by decide
  rw [h] at hok
  injection hok with hok
  exact List.cons_ne_nil g [] hok.symm

/-- C3: with group size 3, an 11-name roster partitions into sizes
`{3,3,3,2}`, a 10-name roster into `{4,3,3}` (the single leftover joins the
first emitted group), and a 1-name roster — where no groups were emitted at
all — into one singleton group. -/
theorem remainder_shapes :
    (∀ (names : List String) (pp : PP) (shuf0 : List String → List String)
        (shuf : Nat → List String → List String),
      (∀ l, (shuf0 l).Perm l) → IsShuffler shuf → names.length = 11 →
      ∃ gs, create_groups_intelligently names pp 3 shuf0 shuf = .ok gs ∧
        gs.map List.length = [3, 3, 3, 2]) ∧
    (∀ (names : List String) (pp : PP) (shuf0 : List String → List String)
        (shuf : Nat → List String → List String),
      (∀ l, (shuf0 l).Perm l) → IsShuffler shuf → names.length = 10 →
      ∃ gs, create_groups_intelligently names pp 3 shuf0 shuf = .ok gs ∧
        gs.map List.length = [4, 3, 3]) ∧
    (∀ (names : List String) (pp : PP) (shuf0 : List String → List String)
        (shuf : Nat → List String → List String),
      (∀ l, (shuf0 l).Perm l) → IsShuffler shuf → names.length = 1 →
      ∃ gs, create_groups_intelligently names pp 3 shuf0 shuf = .ok gs ∧
        gs.map List.length = [1]) := by
  refine ⟨?_, ?_, ?_⟩
  · intro names pp shuf0 shuf h0 hs hlen
    obtain ⟨newgs, rest, hok, hall, hcnt, hmod, -⟩ :=
      create_spec names pp 3 shuf0 shuf (h0 names) (by omega) hs
    rw [hlen] at hcnt hmod
    have hcnt3 : newgs.length = 3 := hcnt
    have hmod2 : rest.length = 2 := hmod
    have hmap : newgs.map List.length = [3, 3, 3] := by
      have h1 : newgs.map List.length = List.replicate 3 3 :=
        List.eq_replicate_iff.mpr ⟨by simp [hcnt3], by
          intro b hb
          rcases List.mem_map.mp hb with ⟨g, hg, rfl⟩
          exact hall g hg⟩
      rw [h1]
      rfl
    have hie : rest.isEmpty = false := by
      cases hr : rest with
      | nil => rw [hr] at hmod2; simp at hmod2
      | cons a l => rfl
    have hres : handleRemainder newgs rest = newgs ++ [rest] := by
      unfold handleRemainder
      rw [hie]
      simp only [Bool.not_false, if_true]
      rw [if_neg (by simp [hmod2]), if_pos (by simp [hmod2])]
    refine ⟨handleRemainder newgs rest, hok, ?_⟩
    rw [hres]
    simp [hmap, hmod2]
  · intro names pp shuf0 shuf h0 hs hlen
    obtain ⟨newgs, rest, hok, hall, hcnt, hmod, -⟩ :=
      create_spec names pp 3 shuf0 shuf (h0 names) (by omega) hs
    rw [hlen] at hcnt hmod
    have hcnt3 : newgs.length = 3 := hcnt
    have hmod1 : rest.length = 1 := hmod
    have hmap : newgs.map List.length = [3, 3, 3] := by
      have h1 : newgs.map List.length = List.replicate 3 3 :=
        List.eq_replicate_iff.mpr ⟨by simp [hcnt3], by
          intro b hb
          rcases List.mem_map.mp hb with ⟨g, hg, rfl⟩
          exact hall g hg⟩
      rw [h1]
      rfl
    cases hng : newgs with
    | nil => rw [hng] at hcnt3; simp at hcnt3
    | cons g gs1 =>
      rw [hng] at hmap
      rw [List.map_cons] at hmap
      injection hmap with hga hmapt
      have hie : rest.isEmpty = false := by
        cases hr : rest with
        | nil => rw [hr] at hmod1; simp at hmod1
        | cons a l => rfl
      have hres : handleRemainder newgs rest = (g ++ rest) :: gs1 := by
        unfold handleRemainder
        rw [hie, hng]
        simp only [Bool.not_false, if_true]
        rw [if_pos (by simp [hmod1])]
      refine ⟨handleRemainder newgs rest, hok, ?_⟩
      rw [hres]
      simp [hga, hmapt, hmod1]
  · intro names pp shuf0 shuf h0 hs hlen
    obtain ⟨newgs, rest, hok, -, hcnt, hmod, -⟩ :=
      create_spec names pp 3 shuf0 shuf (h0 names) (by omega) hs
    rw [hlen] at hcnt hmod
    have hcnt0 : newgs.length = 0 := hcnt
    have hmod1 : rest.length = 1 := hmod
    have hng : newgs = [] := List.length_eq_zero.mp hcnt0
    have hie : rest.isEmpty = false := by
      cases hr : rest with
      | nil => rw [hr] at hmod1; simp at hmod1
      | cons a l => rfl
    have hres : handleRemainder newgs rest = [rest] := by
      unfold handleRemainder
      rw [hie, hng]
      simp only [Bool.not_false, if_true]
      rw [if_pos (by simp [hmod1])]
      rfl
    refine ⟨handleRemainder newgs rest, hok, ?_⟩
    rw [hres]
    simp [hmod1]

/-- Witness for C3: concrete 11-name, 10-name and 1-name rosters. -/
theorem remainder_shapes_witness :
    (∃ gs, create_groups_intelligently
        ["a1", "a2", "a3", "a4", "a5", "a6", "a7", "a8", "a9", "a10", "a11"]
        [] 3 id (fun _ l => l) = .ok gs ∧ gs.map List.length = [3, 3, 3, 2]) ∧
    (∃ gs, create_groups_intelligently
        ["b1", "b2", "b3", "b4", "b5", "b6", "b7", "b8", "b9", "b10"]
        [] 3 id (fun _ l => l) = .ok gs ∧ gs.map List.length = [4, 3, 3]) ∧
    (∃ gs, create_groups_intelligently ["c1"] [] 3 id (fun _ l => l) = .ok gs ∧
      gs.map List.length = [1]) :=
  ⟨remainder_shapes.1 _ [] id (fun _ l => l)
      (fun l => List.Perm.refl l) (fun _ l => List.Perm.refl l) rfl,
    remainder_shapes.2.1 _ [] id (fun _ l => l)
      (fun l => List.Perm.refl l) (fun _ l => List.Perm.refl l) rfl,
    remainder_shapes.2.2 _ [] id (fun _ l => l)
      (fun l => List.Perm.refl l) (fun _ l => List.Perm.refl l) rfl⟩

/-- C4 (amended): every group completed through the candidate-pool
(non-fallback) branch contains no member other than the anchor that is in
the anchor's avoidance set.  (Two non-anchor members may still be in each
other's avoidance sets — the pool is filtered against the anchor only; see
the counterexample.) -/
theorem candidate_branch_anchor_compatible (pp : PP) (gsize : Nat)
    (shufF : List String → List String) (person1 : String) (rest : List String)
    (hcl : ¬ (rest.filter (fun p => isCandidate pp person1 p)).length < gsize - 1)
    (hsh : ∀ l, (shufF l).Perm l) :
    ∃ tail rest1,
      formGroup pp gsize shufF person1 rest = .ok (person1 :: tail, rest1) ∧
      ∀ m ∈ tail, isCandidate pp person1 m = true := by
  unfold formGroup
  rw [if_neg hcl]
  have hcount : ∀ x,
      (shufF (rest.filter (fun p => isCandidate pp person1 p))).count x ≤
        rest.count x := by
    intro x
    rw [(hsh _).count_eq x]
    exact (List.filter_sublist rest).count_le x
  obtain ⟨rest1, hpl, -⟩ := pickLoop_spec (gsize - 1) _ rest hcount
  refine ⟨(shufF (rest.filter (fun p => isCandidate pp person1 p))).take (gsize - 1),
    rest1, ?_, ?_⟩
  · simp only [hpl, except_ok_bind]
  intro m hm
  have hm2 : m ∈ shufF (rest.filter (fun p => isCandidate pp person1 p)) :=
    List.mem_of_mem_take hm
  have hm3 : m ∈ rest.filter (fun p => isCandidate pp person1 p) :=
    (hsh _).mem_iff.mp hm2
  exact (List.mem_filter.mp hm3).2

/-- Witness for C4 at a concrete candidate-branch invocation with an empty
history. -/
theorem candidate_branch_anchor_compatible_witness :
    ∃ tail rest1,
      formGroup [] 3 id "A" ["B", "C"] = .ok ("A" :: tail, rest1) ∧
      ∀ m ∈ tail, isCandidate [] "A" m = true :=
  candidate_branch_anchor_compatible [] 3 id "A" ["B", "C"] (by decide)
    (fun l => List.Perm.refl l)

/-- Counterexample to C4 as stated: with history `{B:{C}, C:{B}}` the group
`[A, B, C]` is completed through the candidate branch (the pool filtered
against anchor `A` keeps both `B` and `C`), yet `B` and `C` are in each
other's avoidance sets. -/
theorem candidate_branch_repeat_pair :
    create_groups_intelligently ["A", "B", "C"] ppBC 3 id (fun _ l => l) =
      .ok [["A", "B", "C"]] ∧
    ¬ ((["B", "C"].filter (fun p => isCandidate ppBC "A" p)).length < 3 - 1) ∧
    ppMem ppBC "B" "C" ∧ ppMem ppBC "C" "B" := by
  exact ⟨by decide, by decide, by decide, by decide⟩

end CoffeeRoulette
